import Mathlib

/-!
The asoundpp players: keyboard decoder, write step, teardown slot and FLAC position.

A shallow embedding of the parts of `waveplay_async.cpp`, `sine_async.cpp` and
`flac.cpp` that the specification speaks about, followed by the theorems that
settle each statement of the specification against that embedding.
-/

namespace Asoundpp

/-! ## keyboard_handler (waveplay_async.cpp) -/

/-- A `char` of the terminal byte stream, held as its unsigned code (0..255). -/
abbrev Byte := Nat

/-- The escape marker `'\x1b'`. -/
def ESC : Byte := 0x1b

/-- The character `'['`. -/
def LBRACKET : Byte := 0x5b

/-- The function `end_of_esc(c)`: `c >= '@' && c <= '~'`. Codes above 0x7E (negative when
`char` is signed) are outside the range either way. -/
def end_of_esc (c : Byte) : Bool := decide (0x40 ≤ c) && decide (c ≤ 0x7e)

/-- What `process_output_buf` makes visible to the outside, in order: a call
`on_key(t)` or the line `unknown escape sequence: 27 <b>` on `std::cerr`. -/
inductive Event
  | on_key (t : List Byte)
  | unknown_escape (b : Byte)
deriving DecidableEq

/-- The function `callback_once(n)`: copy the first `n` bytes of `output_buf` into `t`, erase
them from `output_buf`, call `on_key(t)`. -/
def callback_once (n : Nat) (output_buf : List Byte) : Event × List Byte :=
  (Event.on_key (output_buf.take n), output_buf.drop n)

/-- The call `std::find_if(output_buf.begin() + start, output_buf.end(), &end_of_esc)` as
an offset from `begin()`; the result is `output_buf.size()` when nothing is found. -/
def find_if_end_of_esc (start : Nat) (output_buf : List Byte) : Nat :=
  start + (output_buf.drop start).findIdx end_of_esc

/-- Put an event in front of what the remaining iterations of the loop produce. -/
def emit (e : Event) (r : Option (List Event × List Byte)) : Option (List Event × List Byte) :=
  r.map (fun p => (e :: p.1, p.2))

/-- The `for (;;)` loop of `process_output_buf`, one iteration per unit of fuel.
The result is the list of events in the order they happen and the content of
`output_buf` at the `break`; `none` means the fuel ran out before a `break`. -/
def process_loop : Nat → List Byte → Option (List Event × List Byte)
  | 0, _ => none
  | fuel + 1, output_buf =>
    match output_buf with
    | [] => some ([], output_buf)
    | c0 :: tail =>
      if c0 ≠ ESC then
        emit (callback_once 1 output_buf).1 (process_loop fuel (callback_once 1 output_buf).2)
      else
        match tail with
        | [] => some ([], output_buf)
        | c1 :: _ =>
          if c1 = LBRACKET then
            if find_if_end_of_esc 2 output_buf = output_buf.length then
              some ([], output_buf)
            else
              emit (callback_once (find_if_end_of_esc 2 output_buf + 1) output_buf).1
                (process_loop fuel (callback_once (find_if_end_of_esc 2 output_buf + 1) output_buf).2)
          else if end_of_esc c1 then
            emit (callback_once 2 output_buf).1 (process_loop fuel (callback_once 2 output_buf).2)
          else
            emit (Event.unknown_escape c1) (process_loop fuel (output_buf.drop 2))

/-- The function `process_output_buf()`: the loop run with one unit of fuel more than there are
bytes in `output_buf`, which `process_loop_fuel` shows is always enough. -/
def process_output_buf (output_buf : List Byte) : List Event × List Byte :=
  (process_loop (output_buf.length + 1) output_buf).getD ([], output_buf)

/-- The function `handle_read_input(error, length)` on the success path: the `length` bytes read
are appended to `output_buf`, then `process_output_buf()` runs. -/
def handle_read_input (output_buf chunk : List Byte) : List Event × List Byte :=
  process_output_buf (output_buf ++ chunk)

/-- Successive read completions: each chunk goes through `handle_read_input` on
the buffer the previous one left; the events are collected in order. -/
def feed_chunks : List Byte → List (List Byte) → List Event × List Byte
  | output_buf, [] => ([], output_buf)
  | output_buf, chunk :: chunks =>
    ((handle_read_input output_buf chunk).1 ++ (feed_chunks (handle_read_input output_buf chunk).2 chunks).1,
     (feed_chunks (handle_read_input output_buf chunk).2 chunks).2)

/-! ## alsa_player::on_keyboard (waveplay_async.cpp) -/

/-- The calls `on_keyboard` can make. -/
inductive Action
  | on_quit
  | seek_backward (frames : Nat)
  | seek_forward (frames : Nat)
deriving DecidableEq

/-- The function `on_keyboard(seq)`, with `sample_rate` for
`stream.get_format().sample_rate`. `format.hpp` is not among the sources, so the
width `w` of the unsigned type in which `sample_rate * 5` is computed is a
parameter. The list holds the calls made, in order. -/
def on_keyboard (w sample_rate : Nat) (seq : List Byte) : List Action :=
  if seq = [0x71] then [Action.on_quit]
  else if seq = [0x1b, 0x5b, 0x44] then [Action.seek_backward ((sample_rate * 5) % 2 ^ w)]
  else if seq = [0x1b, 0x5b, 0x43] then [Action.seek_forward ((sample_rate * 5) % 2 ^ w)]
  else []

/-- The binding `boost::bind(&alsa_player::on_keyboard, this, _1)` given to the
keyboard handler as `on_key`: every token delivered goes to `on_keyboard`; the
lines written to `std::cerr` reach nobody. -/
def dispatch_keys (w sample_rate : Nat) : List Event → List Action
  | [] => []
  | Event.on_key t :: evs => on_keyboard w sample_rate t ++ dispatch_keys w sample_rate evs
  | Event.unknown_escape _ :: evs => dispatch_keys w sample_rate evs

/-! ## alsa_player::do_write (waveplay_async.cpp) -/

/-- The fields of `format` (format.hpp, not among the sources) that the code reads;
`bytes_per_sample` stands for the width of the sample format `fmt`. -/
structure format where
  sample_rate : Nat
  channels : Nat
  bytes_per_sample : Nat
deriving DecidableEq

/-- Modelled from the spec: `format::frame_size()` is declared in format.hpp, which
is not among the sources; the spec gives frame_size = channel_count × bytes_per_sample. -/
def format.frame_size (f : format) : Nat := f.channels * f.bytes_per_sample

/-- The state of the `input_stream&` that `alsa_player` holds, as far as its
getters `get_size()`, `get_position()` and `get_format()` show it. -/
structure input_stream where
  size : Nat
  position : Nat
  fmt : format
deriving DecidableEq

/-- What the collaborators answer during one `do_write`: `stream.get_available()`,
`ad.avail_update()`, whether `stream.read` throws, and what `ad.write` returns
(`none` when it throws). -/
structure write_env where
  get_available : Nat
  avail_update : Nat
  read_throws : Bool
  write : Option Nat
deriving DecidableEq

/-- How one `do_write` ends. `requested n` records `stream.read(&buf[0], n)` and
`ad.write(&buf[0], n)` being asked for `n` frames. -/
inductive write_step
  /-- Case `get_size() == get_position()`: `on_quit()` and return. -/
  | quit_end_of_stream
  /-- Case `buf.size() / frame_size()` with `frame_size() == 0`. -/
  | division_by_zero
  /-- Case `frames_to_write == 0`: return without reading or writing. -/
  | nothing_to_write
  /-- Case `stream.read` threw: the handler prints the error and calls `on_quit()`. -/
  | quit_read_error (requested : Nat)
  /-- Case `ad.write` threw: the handler prints the error and calls `on_quit()`. -/
  | quit_write_error (requested : Nat)
  /-- Case `assert(written == frames_to_write)` failed. -/
  | assert_failed (requested written : Nat)
  /-- The function reached the end of the `try` block. -/
  | completed (requested written : Nat)
deriving DecidableEq

/-- Modelled from the spec: `input_stream::read` is implemented outside the sources;
as in `decoder::read` of flac.cpp and section 6 of the spec, a read of `n` frames
that returns has advanced the position by `n`. -/
def input_stream.read (stream : input_stream) (n : Nat) : input_stream :=
  { stream with position := stream.position + n }

/-- The three lines of `do_write` that compute `frames_to_write`: the frames that
fit `buf` (16 KiB), cut down to `stream.get_available()` and then to
`ad.avail_update()`. -/
def alsa_player.frames_to_write (stream : input_stream) (env : write_env) : Nat :=
  let frames_to_write := 16 * 1024 / stream.fmt.frame_size
  let frames_to_write := min frames_to_write env.get_available
  min frames_to_write env.avail_update

/-- The function `alsa_player::do_write()`. `ndebug` says whether `assert` is
compiled out. The second component is the stream afterwards; where a throwing
read leaves the stream is not known, and it is shown as it was. -/
def alsa_player.do_write (ndebug : Bool) (stream : input_stream) (env : write_env) :
    write_step × input_stream :=
  if stream.size = stream.position then (write_step.quit_end_of_stream, stream)
  else if stream.fmt.frame_size = 0 then (write_step.division_by_zero, stream)
  else
    let frames_to_write := alsa_player.frames_to_write stream env
    if frames_to_write = 0 then (write_step.nothing_to_write, stream)
    else if env.read_throws then (write_step.quit_read_error frames_to_write, stream)
    else
      match env.write with
      | none => (write_step.quit_write_error frames_to_write, stream.read frames_to_write)
      | some written =>
        if !ndebug && written ≠ frames_to_write then
          (write_step.assert_failed frames_to_write written, stream.read frames_to_write)
        else
          (write_step.completed frames_to_write written, stream.read frames_to_write)

/-- The number of frames a `do_write` asked the source and the sink for, if it asked. -/
def write_step.requested_frames : write_step → Option Nat
  | write_step.quit_read_error n => some n
  | write_step.quit_write_error n => some n
  | write_step.assert_failed n _ => some n
  | write_step.completed n _ => some n
  | _ => none

/-- Whether the `do_write` called `on_quit()`. -/
def write_step.calls_on_quit : write_step → Bool
  | write_step.quit_end_of_stream => true
  | write_step.quit_read_error _ => true
  | write_step.quit_write_error _ => true
  | _ => false

/-! ## optional_player (waveplay_async.cpp) -/

/-- The members of `alsa_player` with state of their own in this development: the
`output_buf` of the keyboard handler `kh`. The stream is held by reference and
lives outside the player. -/
structure alsa_player where
  kh_output_buf : List Byte
deriving DecidableEq

/-- The struct `optional_player`: the slot `player_` and, for bookkeeping, how many
times an `alsa_player` held in the slot has been destroyed. -/
structure optional_player where
  player_ : Option alsa_player
  destroyed : Nat
deriving DecidableEq

/-- The function `optional_player::on_close()`: `player_ = boost::none`, which
destroys the contained `alsa_player` at once, inside the call, when there is one
and does nothing otherwise. Every `on_quit` of the player is bound to it. -/
def optional_player.on_close (s : optional_player) : optional_player :=
  match s.player_ with
  | some _ => { player_ := none, destroyed := s.destroyed + 1 }
  | none => s

/-- How a run of `keyboard_handler::handle_read_input` inside a player ends. -/
inductive callback_end
  /-- The handler ran to its end on a live player; `s` is the slot afterwards. -/
  | returned (s : optional_player)
  /-- A token made `on_keyboard` call `on_quit`: `on_close` destroyed the player,
  and with it the keyboard handler, inside `callback_once`, which then returned
  into the loop of `process_output_buf` on the destroyed handler. `s` is the slot
  at that point and `pending` what the loop would still deliver; from here on
  the behaviour of the program is undefined. -/
  | used_destroyed_handler (s : optional_player) (pending : List Event)
deriving DecidableEq

/-- The calls `on_key(t)` of one `process_output_buf`, in order, with `on_key` bound
to `alsa_player::on_keyboard` and `on_quit` to `optional_player::on_close`. A seek
acts on the stream and leaves the slot alone. `output_buf` is what the loop
leaves in the handler when it is not destroyed on the way. -/
def deliver_keys (w sample_rate : Nat) (output_buf : List Byte) (destroyed : Nat) :
    List Event → callback_end
  | [] => callback_end.returned { player_ := some { kh_output_buf := output_buf }, destroyed := destroyed }
  | Event.unknown_escape _ :: evs => deliver_keys w sample_rate output_buf destroyed evs
  | Event.on_key t :: evs =>
    if Action.on_quit ∈ on_keyboard w sample_rate t then
      callback_end.used_destroyed_handler
        (optional_player.on_close
          { player_ := some { kh_output_buf := output_buf }, destroyed := destroyed }) evs
    else deliver_keys w sample_rate output_buf destroyed evs

/-- A read completion of `chunk` on the keyboard handler of the live player `p`:
`handle_read_input` with the tokens going to `on_keyboard`. -/
def alsa_player.keyboard_read (w sample_rate : Nat) (p : alsa_player) (destroyed : Nat)
    (chunk : List Byte) : callback_end :=
  deliver_keys w sample_rate (handle_read_input p.kh_output_buf chunk).2 destroyed
    (handle_read_input p.kh_output_buf chunk).1

/-- The handler given to `ss.async_wait`: `boost::bind(on_quit)`, run when SIGINT,
SIGTERM or SIGQUIT arrives. -/
def optional_player.on_signal (s : optional_player) : optional_player := s.on_close

/-! ## pcm_test (sine_async.cpp) -/

/-- Linux errno values used by `snd_pcm_writei`. -/
def EPIPE : Int := 32

/-- See `EPIPE`. -/
def EAGAIN : Int := 11

/-- The `size - current_size` calls of the generator `g()`, in order. The generator
(sine_wave_generator.hpp, not among the sources) is a state `G` with a step `next`. -/
def generate {G : Type} (next : G → Int × G) : Nat → G → List Int × G
  | 0, g => ([], g)
  | k + 1, g => ((next g).1 :: (generate next k (next g).2).1, (generate next k (next g).2).2)

/-- The function `fill_buffer(buf, g, size)`. -/
def fill_buffer {G : Type} (next : G → Int × G) (buf : List Int) (g : G) (size : Nat) :
    List Int × G :=
  if buf.length ≥ size then (buf, g)
  else (buf ++ (generate next (size - buf.length) g).1, (generate next (size - buf.length) g).2)

/-- The members of `pcm_test`: the pending samples, the generator, and for the
device `d` the number of `d.prepare()` calls made on it. -/
structure pcm_test (G : Type) where
  buffer : List Int
  wave_gen : G
  prepare_calls : Nat

/-- How a member function ends: by returning or by throwing. -/
inductive Outcome
  | returned
  | threw (what : String)
deriving DecidableEq

/-- The function `pcm_test::do_write()`, where `err` is what `snd_pcm_writei` returns
for the filled buffer. The text written to `std::cout` is left out. -/
def pcm_test.do_write {G : Type} (next : G → Int × G) (err : Int) (s : pcm_test G) :
    Outcome × pcm_test G :=
  let filled := fill_buffer next s.buffer s.wave_gen 1000
  if err = -EPIPE then
    (Outcome.returned, { buffer := filled.1, wave_gen := filled.2, prepare_calls := s.prepare_calls + 1 })
  else if err = -EAGAIN then
    (Outcome.returned, { buffer := filled.1, wave_gen := filled.2, prepare_calls := s.prepare_calls })
  else if err < 0 then
    (Outcome.threw "writei failed", { buffer := filled.1, wave_gen := filled.2, prepare_calls := s.prepare_calls })
  else
    (Outcome.returned, { buffer := filled.1.drop err.toNat, wave_gen := filled.2, prepare_calls := s.prepare_calls })

/-- The samples `do_write` hands to `snd_pcm_writei`: the buffer after `fill_buffer`. -/
def pcm_test.offered {G : Type} (next : G → Int × G) (s : pcm_test G) : List Int :=
  (fill_buffer next s.buffer s.wave_gen 1000).1

/-! ## decoder (flac.cpp) -/

/-- One past the largest `size_t`. -/
def SIZE_T : Nat := 2 ^ 64

/-- A callback libFLAC makes into the decoder during one of its calls. -/
inductive Callback
  /-- The write callback with one block: the pairs `buffer[0][i]`, `buffer[1][i]`. -/
  | do_write (block : List (Int × Int))
  /-- The metadata callback with a stream info of the given sample width. -/
  | do_metadata (bits_per_sample : Nat) (fmt : format) (total_samples : Nat)
  /-- The error callback, with the text of `FLAC__StreamDecoderErrorStatusString[status]`. -/
  | do_error (status : String)
deriving DecidableEq

/-- One call of `FLAC__stream_decoder_seek_absolute` or
`FLAC__stream_decoder_process_single` as the decoder sees it: the callbacks made
while it runs, in order, and the value it returns. -/
structure FlacCall where
  callbacks : List Callback
  res : Nat
deriving DecidableEq

/-- The members of `decoder`. The handle `dec` is held as the answers libFLAC
will give to the calls still to come; `metadata_` is always set in a constructed
decoder, since the constructor throws otherwise. -/
structure decoder where
  dec : List FlacCall
  last_error_ : String
  metadata_ : format × Nat
  written_data : List Byte
  current_pos : Nat
deriving DecidableEq

/-- The function `get_format()`. -/
def decoder.get_format (d : decoder) : format := d.metadata_.1

/-- The function `get_position()`. -/
def decoder.get_position (d : decoder) : Nat := d.current_pos

/-- The function `set_last_error(msg)`: keeps the first error. -/
def decoder.set_last_error (d : decoder) (msg : String) : decoder :=
  if d.last_error_ = "" then { d with last_error_ := msg } else d

/-- The function `check_last_error_and_throw()`: the text of the exception thrown,
or `none` when it returns. -/
def decoder.check_last_error_and_throw (d : decoder) : Option String :=
  if d.last_error_ = "" then none else some ("flac decoding error: " ++ d.last_error_)

/-- The function `write_i16(v)`: the low byte of `v`, then the byte of `v >> 8`. -/
def decoder.write_i16 (d : decoder) (v : Int) : decoder :=
  { d with written_data := d.written_data ++ [(v % 256).toNat, (v / 256 % 256).toNat] }

/-- The static callback `do_write`: both channels of every sample of the block. -/
def decoder.do_write (d : decoder) (block : List (Int × Int)) : decoder :=
  block.foldl (fun d s => (d.write_i16 s.1).write_i16 s.2) d

/-- The static callback `do_metadata` on a constructed decoder, whose `metadata_`
is already set. -/
def decoder.do_metadata (d : decoder) : decoder := d.set_last_error "duplicate metadata"

/-- The static callback `do_error`. -/
def decoder.do_error (d : decoder) (status : String) : decoder :=
  d.set_last_error ("flac decoding error: " ++ status)

/-- Dispatch of one libFLAC callback. -/
def decoder.callback (d : decoder) : Callback → decoder
  | Callback.do_write block => d.do_write block
  | Callback.do_metadata _ _ _ => d.do_metadata
  | Callback.do_error status => d.do_error status

/-- The callbacks of one libFLAC call, in order. -/
def decoder.callbacks (d : decoder) (cs : List Callback) : decoder :=
  cs.foldl decoder.callback d

/-- The function `seek(frame_n)`. The result is `none` when nothing is known about
how libFLAC answers. -/
def decoder.seek (d : decoder) (frame_n : Nat) : Option (Outcome × decoder) :=
  match d.check_last_error_and_throw with
  | some what => some (Outcome.threw what, d)
  | none =>
    match d.dec with
    | [] => none
    | call :: rest =>
      let d1 := ({ d with current_pos := frame_n, written_data := [], dec := rest } : decoder).callbacks
        call.callbacks
      if call.res = 0 then
        match (d1.set_last_error "seek failed").check_last_error_and_throw with
        | some what => some (Outcome.threw what, d1.set_last_error "seek failed")
        | none => some (Outcome.returned, d1.set_last_error "seek failed")
      else some (Outcome.returned, d1)

/-- How `read` ends: with the bytes copied to `buf`, or by throwing. -/
inductive ReadResult
  | returned (buf : List Byte)
  | threw (what : String)
deriving DecidableEq

/-- The `for (;;)` loop of `read`, by recursion on the answers libFLAC still has
to give; `none` when they run out before the loop is left. -/
def decoder.read_loop (number_of_frames number_of_bytes : Nat) :
    List FlacCall → decoder → Option (ReadResult × decoder)
  | [], d =>
    if d.written_data.length ≥ number_of_bytes then
      some (ReadResult.returned (d.written_data.take number_of_bytes),
        { d with dec := [], written_data := d.written_data.drop number_of_bytes,
                 current_pos := (d.current_pos + number_of_frames) % SIZE_T })
    else none
  | call :: rest, d =>
    if d.written_data.length ≥ number_of_bytes then
      some (ReadResult.returned (d.written_data.take number_of_bytes),
        { d with dec := call :: rest, written_data := d.written_data.drop number_of_bytes,
                 current_pos := (d.current_pos + number_of_frames) % SIZE_T })
    else
      let d1 := ({ d with dec := rest } : decoder).callbacks call.callbacks
      let d2 := if call.res = 0 then d1.set_last_error "unknown error" else d1
      match d2.check_last_error_and_throw with
      | some what => some (ReadResult.threw what, d2)
      | none => decoder.read_loop number_of_frames number_of_bytes rest d2

/-- The function `read(buf, number_of_frames)`. -/
def decoder.read (d : decoder) (number_of_frames : Nat) : Option (ReadResult × decoder) :=
  match d.check_last_error_and_throw with
  | some what => some (ReadResult.threw what, d)
  | none =>
    decoder.read_loop number_of_frames (number_of_frames * d.get_format.frame_size % SIZE_T) d.dec d

/-- Consecutive reads of the given sizes, all of which return; `none` as soon as
one throws or libFLAC's answers run out. -/
def decoder.reads : decoder → List Nat → Option decoder
  | d, [] => some d
  | d, n :: ns =>
    match d.read n with
    | some (ReadResult.returned _, d1) => decoder.reads d1 ns
    | _ => none

/-! ## Sample states -/

/-- A stereo 16-bit format at 44100 Hz. -/
def cd_format : format := { sample_rate := 44100, channels := 2, bytes_per_sample := 2 }

/-- A decoder of a 1000-frame file for which libFLAC answers a seek without a
callback and then one `process_single` with a block of two stereo samples. -/
def sample_decoder : decoder :=
  { dec := [{ callbacks := [], res := 1 },
            { callbacks := [Callback.do_write [(1, 2), (-1, 258)]], res := 1 }],
    last_error_ := "", metadata_ := (cd_format, 1000), written_data := [], current_pos := 0 }

/-- The state of `sample_decoder` after `seek(10)`. -/
def sample_decoder_sought : decoder :=
  { dec := [{ callbacks := [Callback.do_write [(1, 2), (-1, 258)]], res := 1 }],
    last_error_ := "", metadata_ := (cd_format, 1000), written_data := [], current_pos := 10 }

/-- The state of `sample_decoder_sought` after reads of 0 and of 2 frames. -/
def sample_decoder_read : decoder :=
  { dec := [], last_error_ := "", metadata_ := (cd_format, 1000), written_data := [],
    current_pos := 12 }

/-- A generator that counts up from its state. -/
def counter_gen (g : Nat) : Int × Nat := ((g : Int), g + 1)

/-! ## Theorems: the loop of process_output_buf -/

theorem find_if_le_length (buf : List Byte) (h : 2 ≤ buf.length) :
    find_if_end_of_esc 2 buf ≤ buf.length := by
  unfold find_if_end_of_esc
  have := @List.findIdx_le_length _ end_of_esc (buf.drop 2)
  simp only [List.length_drop] at this
  omega

theorem loop_nil (f : Nat) : process_loop (f + 1) [] = some ([], []) := rfl

theorem loop_plain (f : Nat) (c0 : Byte) (tail : List Byte) (h : c0 ≠ ESC) :
    process_loop (f + 1) (c0 :: tail) = emit (Event.on_key [c0]) (process_loop f tail) := by
  simp [process_loop, h, callback_once]

theorem loop_esc_alone (f : Nat) : process_loop (f + 1) [ESC] = some ([], [ESC]) := by
  simp [process_loop]

theorem loop_csi_wait (f : Nat) (rest : List Byte)
    (h : find_if_end_of_esc 2 (ESC :: LBRACKET :: rest) = (ESC :: LBRACKET :: rest).length) :
    process_loop (f + 1) (ESC :: LBRACKET :: rest) = some ([], ESC :: LBRACKET :: rest) := by
  simp only [process_loop]
  rw [if_neg (by simp), if_pos trivial, if_pos h]

theorem loop_csi (f : Nat) (rest : List Byte)
    (h : find_if_end_of_esc 2 (ESC :: LBRACKET :: rest) ≠ (ESC :: LBRACKET :: rest).length) :
    process_loop (f + 1) (ESC :: LBRACKET :: rest) =
      emit (Event.on_key ((ESC :: LBRACKET :: rest).take (find_if_end_of_esc 2 (ESC :: LBRACKET :: rest) + 1)))
        (process_loop f ((ESC :: LBRACKET :: rest).drop (find_if_end_of_esc 2 (ESC :: LBRACKET :: rest) + 1))) := by
  simp only [process_loop]
  rw [if_neg (by simp), if_pos trivial, if_neg h]
  rfl

theorem loop_esc_pair (f : Nat) (c1 : Byte) (rest : List Byte) (h1 : c1 ≠ LBRACKET)
    (h2 : end_of_esc c1 = true) :
    process_loop (f + 1) (ESC :: c1 :: rest) = emit (Event.on_key [ESC, c1]) (process_loop f rest) := by
  simp only [process_loop]
  rw [if_neg (by simp), if_neg h1, if_pos h2]
  rfl

theorem loop_unknown (f : Nat) (c1 : Byte) (rest : List Byte) (h1 : c1 ≠ LBRACKET)
    (h2 : end_of_esc c1 = false) :
    process_loop (f + 1) (ESC :: c1 :: rest) = emit (Event.unknown_escape c1) (process_loop f rest) := by
  simp only [process_loop]
  rw [if_neg (by simp), if_neg h1, if_neg (by simp [h2])]
  rfl

/-- Every run of the loop with more fuel than bytes ends at a `break`, and the
result does not depend on how much more fuel there is. -/
theorem process_loop_total (n : Nat) : ∀ buf : List Byte, buf.length ≤ n →
    ∃ r, ∀ fuel, buf.length < fuel → process_loop fuel buf = some r := by
  induction n with
  | zero =>
    intro buf h
    have hb : buf = [] := List.length_eq_zero.mp (by omega)
    subst hb
    refine ⟨([], []), fun fuel hf => ?_⟩
    cases fuel with
    | zero => simp at hf
    | succ f => rfl
  | succ n ih =>
    intro buf h
    match buf, h with
    | [], _ =>
      refine ⟨([], []), fun fuel hf => ?_⟩
      cases fuel with
      | zero => simp at hf
      | succ f => rfl
    | c0 :: tail, h =>
      by_cases h0 : c0 = ESC
      · subst h0
        match tail, h with
        | [], _ =>
          refine ⟨([], [ESC]), fun fuel hf => ?_⟩
          cases fuel with
          | zero => simp at hf
          | succ f => exact loop_esc_alone f
        | c1 :: rest, h =>
          simp only [List.length_cons] at h
          by_cases h1 : c1 = LBRACKET
          · subst h1
            by_cases hf : find_if_end_of_esc 2 (ESC :: LBRACKET :: rest) = (ESC :: LBRACKET :: rest).length
            · refine ⟨([], ESC :: LBRACKET :: rest), fun fuel hfu => ?_⟩
              cases fuel with
              | zero => simp at hfu
              | succ f => exact loop_csi_wait f rest hf
            · obtain ⟨r, hr⟩ := ih ((ESC :: LBRACKET :: rest).drop (find_if_end_of_esc 2 (ESC :: LBRACKET :: rest) + 1))
                (by simp only [List.length_drop, List.length_cons]; omega)
              refine ⟨(Event.on_key ((ESC :: LBRACKET :: rest).take (find_if_end_of_esc 2 (ESC :: LBRACKET :: rest) + 1))
                :: r.1, r.2), fun fuel hfu => ?_⟩
              cases fuel with
              | zero => simp at hfu
              | succ f =>
                rw [loop_csi f rest hf, hr f (by simp only [List.length_drop, List.length_cons] at hfu ⊢; omega)]
                rfl
          · cases h2 : end_of_esc c1 with
            | true =>
              obtain ⟨r, hr⟩ := ih rest (by omega)
              refine ⟨(Event.on_key [ESC, c1] :: r.1, r.2), fun fuel hfu => ?_⟩
              cases fuel with
              | zero => simp at hfu
              | succ f =>
                rw [loop_esc_pair f c1 rest h1 h2, hr f (by simp only [List.length_cons] at hfu; omega)]
                rfl
            | false =>
              obtain ⟨r, hr⟩ := ih rest (by omega)
              refine ⟨(Event.unknown_escape c1 :: r.1, r.2), fun fuel hfu => ?_⟩
              cases fuel with
              | zero => simp at hfu
              | succ f =>
                rw [loop_unknown f c1 rest h1 h2, hr f (by simp only [List.length_cons] at hfu; omega)]
                rfl
      · obtain ⟨r, hr⟩ := ih tail (by simp only [List.length_cons] at h; omega)
        refine ⟨(Event.on_key [c0] :: r.1, r.2), fun fuel hfu => ?_⟩
        cases fuel with
        | zero => simp at hfu
        | succ f =>
          rw [loop_plain f c0 tail h0, hr f (by simp only [List.length_cons] at hfu; omega)]
          rfl

/-- With more fuel than bytes the loop returns what `process_output_buf` returns. -/
theorem process_loop_fuel (fuel : Nat) (buf : List Byte) (h : buf.length < fuel) :
    process_loop fuel buf = some (process_output_buf buf) := by
  obtain ⟨r, hr⟩ := process_loop_total buf.length buf (le_refl _)
  rw [hr fuel h]
  unfold process_output_buf
  rw [hr (buf.length + 1) (by omega)]
  rfl

/-! ## Theorems: one iteration of process_output_buf -/

theorem process_nil : process_output_buf [] = ([], []) := rfl

theorem process_plain (c0 : Byte) (tail : List Byte) (h : c0 ≠ ESC) :
    process_output_buf (c0 :: tail) =
      (Event.on_key [c0] :: (process_output_buf tail).1, (process_output_buf tail).2) := by
  have h1 := process_loop_fuel ((c0 :: tail).length + 1) (c0 :: tail) (by omega)
  rw [List.length_cons, loop_plain _ c0 tail h, process_loop_fuel _ tail (by omega)] at h1
  exact (Option.some.inj h1).symm

theorem process_esc_alone : process_output_buf [ESC] = ([], [ESC]) := by
  have h1 := process_loop_fuel 2 [ESC] (by simp)
  rw [loop_esc_alone] at h1
  exact (Option.some.inj h1).symm

theorem process_csi_wait (rest : List Byte)
    (h : find_if_end_of_esc 2 (ESC :: LBRACKET :: rest) = (ESC :: LBRACKET :: rest).length) :
    process_output_buf (ESC :: LBRACKET :: rest) = ([], ESC :: LBRACKET :: rest) := by
  have h1 := process_loop_fuel ((ESC :: LBRACKET :: rest).length + 1) (ESC :: LBRACKET :: rest) (by omega)
  rw [loop_csi_wait _ rest h] at h1
  exact (Option.some.inj h1).symm

theorem process_csi (rest : List Byte)
    (h : find_if_end_of_esc 2 (ESC :: LBRACKET :: rest) ≠ (ESC :: LBRACKET :: rest).length) :
    process_output_buf (ESC :: LBRACKET :: rest) =
      (Event.on_key ((ESC :: LBRACKET :: rest).take (find_if_end_of_esc 2 (ESC :: LBRACKET :: rest) + 1)) ::
        (process_output_buf ((ESC :: LBRACKET :: rest).drop (find_if_end_of_esc 2 (ESC :: LBRACKET :: rest) + 1))).1,
       (process_output_buf ((ESC :: LBRACKET :: rest).drop (find_if_end_of_esc 2 (ESC :: LBRACKET :: rest) + 1))).2) := by
  have h1 := process_loop_fuel ((ESC :: LBRACKET :: rest).length + 1) (ESC :: LBRACKET :: rest) (by omega)
  rw [loop_csi _ rest h, process_loop_fuel _ _ (by simp only [List.length_drop, List.length_cons]; omega)] at h1
  exact (Option.some.inj h1).symm

theorem process_esc_pair (c1 : Byte) (rest : List Byte) (h1 : c1 ≠ LBRACKET)
    (h2 : end_of_esc c1 = true) :
    process_output_buf (ESC :: c1 :: rest) =
      (Event.on_key [ESC, c1] :: (process_output_buf rest).1, (process_output_buf rest).2) := by
  have h := process_loop_fuel ((ESC :: c1 :: rest).length + 1) (ESC :: c1 :: rest) (by omega)
  rw [loop_esc_pair _ c1 rest h1 h2, process_loop_fuel _ rest (by simp only [List.length_cons]; omega)] at h
  exact (Option.some.inj h).symm

theorem process_unknown (c1 : Byte) (rest : List Byte) (h1 : c1 ≠ LBRACKET)
    (h2 : end_of_esc c1 = false) :
    process_output_buf (ESC :: c1 :: rest) =
      (Event.unknown_escape c1 :: (process_output_buf rest).1, (process_output_buf rest).2) := by
  have h := process_loop_fuel ((ESC :: c1 :: rest).length + 1) (ESC :: c1 :: rest) (by omega)
  rw [loop_unknown _ c1 rest h1 h2, process_loop_fuel _ rest (by simp only [List.length_cons]; omega)] at h
  exact (Option.some.inj h).symm

/-! ## Theorems: appending bytes to the buffer -/

theorem find_if_two (c0 c1 : Byte) (rest : List Byte) :
    find_if_end_of_esc 2 (c0 :: c1 :: rest) = 2 + rest.findIdx end_of_esc := rfl

theorem find_if_append (rest b : List Byte)
    (h : find_if_end_of_esc 2 (ESC :: LBRACKET :: rest) ≠ (ESC :: LBRACKET :: rest).length) :
    find_if_end_of_esc 2 (ESC :: LBRACKET :: (rest ++ b)) = find_if_end_of_esc 2 (ESC :: LBRACKET :: rest) := by
  rw [find_if_two, find_if_two, List.findIdx_append]
  rw [find_if_two] at h
  have := @List.findIdx_le_length _ end_of_esc rest
  simp only [List.length_cons] at h
  rw [if_pos (by omega)]

/-- Processing `a ++ b` gives the events of processing `a`, then the events of
processing what `a` left followed by `b`. -/
theorem process_append (n : Nat) : ∀ a b : List Byte, a.length ≤ n →
    process_output_buf (a ++ b) =
      ((process_output_buf a).1 ++ (process_output_buf ((process_output_buf a).2 ++ b)).1,
       (process_output_buf ((process_output_buf a).2 ++ b)).2) := by
  induction n with
  | zero =>
    intro a b h
    have ha : a = [] := List.length_eq_zero.mp (by omega)
    subst ha
    simp [process_nil]
  | succ n ih =>
    intro a b h
    match a, h with
    | [], _ => simp [process_nil]
    | c0 :: tail, h =>
      simp only [List.length_cons] at h
      by_cases h0 : c0 = ESC
      · subst h0
        match tail, h with
        | [], _ => simp [process_esc_alone]
        | c1 :: rest, h =>
          simp only [List.length_cons] at h
          by_cases h1 : c1 = LBRACKET
          · subst h1
            by_cases hf : find_if_end_of_esc 2 (ESC :: LBRACKET :: rest) = (ESC :: LBRACKET :: rest).length
            · rw [process_csi_wait rest hf]
              simp
            · have hle := find_if_le_length (ESC :: LBRACKET :: rest) (by simp)
              have hlt : find_if_end_of_esc 2 (ESC :: LBRACKET :: rest) + 1 ≤ (ESC :: LBRACKET :: rest).length := by
                omega
              have hfa := find_if_append rest b hf
              have hne : find_if_end_of_esc 2 (ESC :: LBRACKET :: (rest ++ b)) ≠
                  (ESC :: LBRACKET :: (rest ++ b)).length := by
                rw [hfa]
                simp only [List.length_cons, List.length_append] at hlt ⊢
                omega
              rw [process_csi rest hf]
              simp only [List.cons_append]
              rw [process_csi (rest ++ b) hne, hfa]
              have e1 : (ESC :: LBRACKET :: (rest ++ b)).take (find_if_end_of_esc 2 (ESC :: LBRACKET :: rest) + 1)
                  = (ESC :: LBRACKET :: rest).take (find_if_end_of_esc 2 (ESC :: LBRACKET :: rest) + 1) := by
                have := @List.take_append_of_le_length _ _ b _ hlt
                simpa using this
              have e2 : (ESC :: LBRACKET :: (rest ++ b)).drop (find_if_end_of_esc 2 (ESC :: LBRACKET :: rest) + 1)
                  = (ESC :: LBRACKET :: rest).drop (find_if_end_of_esc 2 (ESC :: LBRACKET :: rest) + 1) ++ b := by
                have := @List.drop_append_of_le_length _ _ b _ hlt
                simpa using this
              rw [e1, e2]
              rw [ih _ b (by simp only [List.length_drop, List.length_cons]; omega)]
          · cases h2 : end_of_esc c1 with
            | true =>
              rw [process_esc_pair c1 rest h1 h2]
              simp only [List.cons_append]
              rw [process_esc_pair c1 (rest ++ b) h1 h2, ih rest b (by omega)]
            | false =>
              rw [process_unknown c1 rest h1 h2]
              simp only [List.cons_append]
              rw [process_unknown c1 (rest ++ b) h1 h2, ih rest b (by omega)]
      · rw [process_plain c0 tail h0]
        simp only [List.cons_append]
        rw [process_plain c0 (tail ++ b) h0, ih tail b (by omega)]

/-- What `process_output_buf` leaves holds no complete token: processing it
again produces nothing and leaves it as it is. -/
theorem process_residual (a : List Byte) :
    process_output_buf (process_output_buf a).2 = ([], (process_output_buf a).2) := by
  have h := process_append a.length a [] (le_refl _)
  simp only [List.append_nil] at h
  have h1 := congrArg Prod.fst h
  have h2 := congrArg Prod.snd h
  simp only at h1 h2
  have h3 : (process_output_buf (process_output_buf a).2).1 = [] := by
    have := congrArg List.length h1
    simp only [List.length_append] at this
    exact List.length_eq_zero.mp (by omega)
  exact Prod.ext h3 h2.symm

/-- Feeding chunks one by one, from a buffer that holds no complete token, is
the same as processing the buffer followed by all the chunks at once. -/
theorem feed_chunks_eq (chunks : List (List Byte)) : ∀ buf : List Byte,
    process_output_buf buf = ([], buf) →
    feed_chunks buf chunks = process_output_buf (buf ++ chunks.flatten) := by
  induction chunks with
  | nil =>
    intro buf h
    simp [feed_chunks, h]
  | cons c cs ih =>
    intro buf h
    simp only [feed_chunks, handle_read_input, List.flatten_cons]
    rw [ih _ (process_residual (buf ++ c))]
    rw [← List.append_assoc, process_append _ (buf ++ c) cs.flatten (le_refl _)]

/-! ## Theorems: the keyboard decoder -/

/-- C1: feeding any sequence of chunks one at a time to the keyboard handler,
starting from an empty buffer, delivers the same tokens and warnings in the same
order and leaves the same pending buffer as feeding their concatenation as one
chunk (empty chunks included). For the chunks ESC, `[`, `D`: nothing is delivered
after the first or the second, the third delivers the one token ESC `[` `D`, and
`on_keyboard` answers it with exactly one `seek_backward` of `5 * sample_rate`
frames, the product being taken without wrap-around. -/
theorem C1_chunking_independence (chunks : List (List Byte)) (w sample_rate : Nat)
    (hrate : sample_rate * 5 < 2 ^ w) :
    feed_chunks [] chunks = handle_read_input [] chunks.flatten ∧
    handle_read_input [] [0x1b] = ([], [0x1b]) ∧
    handle_read_input [0x1b] [0x5b] = ([], [0x1b, 0x5b]) ∧
    handle_read_input [0x1b, 0x5b] [0x44] = ([Event.on_key [0x1b, 0x5b, 0x44]], []) ∧
    dispatch_keys w sample_rate (feed_chunks [] [[0x1b], [0x5b], [0x44]]).1 =
      [Action.seek_backward (5 * sample_rate)] := by
  refine ⟨?_, by decide, by decide, by decide, ?_⟩
  · exact feed_chunks_eq chunks [] process_nil
  · have h : feed_chunks [] [[0x1b], [0x5b], [0x44]] = ([Event.on_key [0x1b, 0x5b, 0x44]], []) := by
      decide
    rw [h]
    simp only [dispatch_keys, on_keyboard]
    rw [if_neg (by decide), if_pos trivial, Nat.mod_eq_of_lt hrate, Nat.mul_comm]
    rfl

/-- C1 at the chunks ESC, `[`, `D` and a 32-bit sample rate of 44100. -/
theorem C1_chunking_independence_witness :
    44100 * 5 < 2 ^ 32 ∧
    (feed_chunks [] [[0x1b], [0x5b], [0x44]] = handle_read_input [] [[0x1b], [0x5b], [0x44]].flatten ∧
     handle_read_input [] [0x1b] = ([], [0x1b]) ∧
     handle_read_input [0x1b] [0x5b] = ([], [0x1b, 0x5b]) ∧
     handle_read_input [0x1b, 0x5b] [0x44] = ([Event.on_key [0x1b, 0x5b, 0x44]], []) ∧
     dispatch_keys 32 44100 (feed_chunks [] [[0x1b], [0x5b], [0x44]]).1 =
       [Action.seek_backward (5 * 44100)]) :=
  ⟨by norm_num, C1_chunking_independence [[0x1b], [0x5b], [0x44]] 32 44100 (by norm_num)⟩

/-- C2: for a buffer that starts with ESC `[`: when `k >= 2` is the least offset
holding a byte in 0x40..0x7E, the first thing delivered is the token made of the
first `k + 1` bytes and the loop goes on with exactly those bytes removed from
the front; when no offset from 2 on holds such a byte, nothing is delivered and
the buffer stays as it is. -/
theorem C2_csi_tokenizing (rest : List Byte) :
    (∀ k c, 2 ≤ k → (ESC :: LBRACKET :: rest)[k]? = some c → end_of_esc c = true →
      (∀ j d, 2 ≤ j → j < k → (ESC :: LBRACKET :: rest)[j]? = some d → end_of_esc d = false) →
      process_output_buf (ESC :: LBRACKET :: rest) =
        (Event.on_key ((ESC :: LBRACKET :: rest).take (k + 1)) ::
          (process_output_buf ((ESC :: LBRACKET :: rest).drop (k + 1))).1,
         (process_output_buf ((ESC :: LBRACKET :: rest).drop (k + 1))).2)) ∧
    ((∀ j d, 2 ≤ j → (ESC :: LBRACKET :: rest)[j]? = some d → end_of_esc d = false) →
      process_output_buf (ESC :: LBRACKET :: rest) = ([], ESC :: LBRACKET :: rest)) := by
  constructor
  · intro k c hk hc hend hbefore
    obtain ⟨i, rfl⟩ : ∃ i, k = i + 2 := ⟨k - 2, by omega⟩
    simp only [List.getElem?_cons_succ] at hc
    have hi : i < rest.length := by
      by_contra hcon
      rw [List.getElem?_eq_none (by omega)] at hc
      exact Option.noConfusion hc
    have hci : rest[i] = c := by
      rw [List.getElem?_eq_getElem hi] at hc
      exact Option.some.inj hc
    have hidx : rest.findIdx end_of_esc = i := by
      rw [List.findIdx_eq hi]
      refine ⟨by rw [hci]; exact hend, fun j hj => ?_⟩
      exact hbefore (j + 2) rest[j] (by omega) (by omega)
        (by simp only [List.getElem?_cons_succ]; exact List.getElem?_eq_getElem (by omega))
    have hf : find_if_end_of_esc 2 (ESC :: LBRACKET :: rest) = i + 2 := by
      rw [find_if_two, hidx, Nat.add_comm]
    have hne : find_if_end_of_esc 2 (ESC :: LBRACKET :: rest) ≠ (ESC :: LBRACKET :: rest).length := by
      rw [hf]
      simp only [List.length_cons]
      omega
    rw [process_csi rest hne, hf]
  · intro hnone
    apply process_csi_wait
    rw [find_if_two]
    have : rest.findIdx end_of_esc = rest.length := by
      rw [List.findIdx_eq_length]
      intro x hx
      obtain ⟨j, hj, rfl⟩ := List.getElem_of_mem hx
      exact hnone (j + 2) rest[j] (by omega)
        (by simp only [List.getElem?_cons_succ]; exact List.getElem?_eq_getElem hj)
    rw [this]
    simp only [List.length_cons]
    omega

/-- C2 at the buffers ESC `[` `1` `D` `q` (terminator at offset 3) and ESC `[` `1`
(no terminator yet). -/
theorem C2_csi_tokenizing_witness :
    process_output_buf [0x1b, 0x5b, 0x31, 0x44, 0x71] =
      (Event.on_key [0x1b, 0x5b, 0x31, 0x44] :: (process_output_buf [0x71]).1,
       (process_output_buf [0x71]).2) ∧
    process_output_buf [0x1b, 0x5b, 0x31] = ([], [0x1b, 0x5b, 0x31]) :=
  ⟨(C2_csi_tokenizing [0x31, 0x44, 0x71]).1 3 0x44 (by decide) (by decide) (by decide)
      (fun j d h2 h3 hj => by
        have hj2 : j = 2 := by omega
        subst hj2
        have : d = 0x31 := (Option.some.inj hj).symm
        subst this
        decide),
   (C2_csi_tokenizing [0x31]).2 (fun j d h2 hj => by
        match j, h2, hj with
        | 2, _, hj =>
          have : d = 0x31 := (Option.some.inj hj).symm
          subst this
          decide
        | j + 3, _, hj => exact absurd hj (by simp))⟩

/-- C3: for a buffer ESC, `b`, rest in which `b` is neither `[` nor a byte in
0x40..0x7E, `process_output_buf` writes exactly one warning, for `b`, removes
exactly those two bytes, and everything else it does is what it does on `rest`
alone: the tokens delivered are those of `rest` and the buffer left is the one
`rest` leaves. Fed as chunks, ESC then `!` give one warning and an empty buffer,
and a following `q` is delivered as a token of length 1. -/
theorem C3_malformed_escape_recovery (b : Byte) (rest : List Byte) (hb1 : b ≠ LBRACKET)
    (hb2 : end_of_esc b = false) :
    process_output_buf (ESC :: b :: rest) =
      (Event.unknown_escape b :: (process_output_buf rest).1, (process_output_buf rest).2) ∧
    (∀ t, Event.on_key t ∈ (process_output_buf (ESC :: b :: rest)).1 ↔
      Event.on_key t ∈ (process_output_buf rest).1) ∧
    feed_chunks [] [[0x1b], [0x21]] = ([Event.unknown_escape 0x21], []) ∧
    feed_chunks [] [[0x1b], [0x21], [0x71]] =
      ([Event.unknown_escape 0x21, Event.on_key [0x71]], []) := by
  refine ⟨process_unknown b rest hb1 hb2, fun t => ?_, by decide, by decide⟩
  rw [process_unknown b rest hb1 hb2]
  simp

/-- C3 at the buffer ESC `!` `q`. -/
theorem C3_malformed_escape_recovery_witness :
    (0x21 : Byte) ≠ LBRACKET ∧ end_of_esc 0x21 = false ∧
    process_output_buf (ESC :: 0x21 :: [0x71]) =
      (Event.unknown_escape 0x21 :: (process_output_buf [0x71]).1, (process_output_buf [0x71]).2) :=
  ⟨by decide, by decide, (C3_malformed_escape_recovery 0x21 [0x71] (by decide) (by decide)).1⟩

/-- C4: for every byte `b` other than ESC, the one-byte chunk `b` fed to a keyboard
handler with an empty buffer delivers exactly one token, the one-byte string `b`,
and leaves the buffer empty; `on_keyboard` calls `on_quit` exactly once when `b`
is `q` and makes no call at all for any other `b`, upper-case `Q` included. The
chunk `q` yields exactly one `on_quit`. -/
theorem C4_single_byte_commands (b : Byte) (w sample_rate : Nat) (hb : b ≠ ESC) :
    handle_read_input [] [b] = ([Event.on_key [b]], []) ∧
    on_keyboard w sample_rate [b] = (if b = 0x71 then [Action.on_quit] else []) ∧
    on_keyboard w sample_rate [0x51] = [] ∧
    dispatch_keys w sample_rate (handle_read_input [] [0x71]).1 = [Action.on_quit] := by
  refine ⟨?_, ?_, by simp [on_keyboard], ?_⟩
  · show process_output_buf [b] = _
    rw [process_plain b [] hb, process_nil]
  · by_cases hq : b = 0x71
    · subst hq
      simp [on_keyboard]
    · simp [on_keyboard, hq]
  · have h : handle_read_input [] [0x71] = ([Event.on_key [0x71]], []) := by decide
    rw [h]
    simp [dispatch_keys, on_keyboard]

/-- C4 at the byte `q`. -/
theorem C4_single_byte_commands_witness :
    (0x71 : Byte) ≠ ESC ∧
    (handle_read_input [] [0x71] = ([Event.on_key [0x71]], []) ∧
     on_keyboard 32 44100 [0x71] = (if (0x71 : Byte) = 0x71 then [Action.on_quit] else []) ∧
     on_keyboard 32 44100 [0x51] = [] ∧
     dispatch_keys 32 44100 (handle_read_input [] [0x71]).1 = [Action.on_quit]) :=
  ⟨by decide, C4_single_byte_commands 0x71 32 44100 (by decide)⟩

/-- C10: for every content of the buffer `process_output_buf` terminates: the loop
reaches a `break` within `size + 1` iterations, with the same result for every
larger bound. What it leaves is empty, or the single byte ESC, or starts with
ESC `[` and holds no byte in 0x40..0x7E from offset 2 on; running it again on
what it left delivers nothing. -/
theorem C10_full_drain (buf : List Byte) :
    (∀ fuel, buf.length < fuel → process_loop fuel buf = some (process_output_buf buf)) ∧
    ((process_output_buf buf).2 = [] ∨ (process_output_buf buf).2 = [ESC] ∨
      ∃ rest, (process_output_buf buf).2 = ESC :: LBRACKET :: rest ∧
        ∀ j d, 2 ≤ j → (ESC :: LBRACKET :: rest)[j]? = some d → end_of_esc d = false) ∧
    process_output_buf (process_output_buf buf).2 = ([], (process_output_buf buf).2) := by
  refine ⟨fun fuel h => process_loop_fuel fuel buf h, ?_, process_residual buf⟩
  have hres := process_residual buf
  generalize (process_output_buf buf).2 = r at hres
  match r, hres with
  | [], _ => exact Or.inl rfl
  | c0 :: tail, hres =>
    by_cases h0 : c0 = ESC
    · subst h0
      match tail, hres with
      | [], _ => exact Or.inr (Or.inl rfl)
      | c1 :: rest, hres =>
        by_cases h1 : c1 = LBRACKET
        · subst h1
          refine Or.inr (Or.inr ⟨rest, rfl, ?_⟩)
          by_cases hf : find_if_end_of_esc 2 (ESC :: LBRACKET :: rest) = (ESC :: LBRACKET :: rest).length
          · rw [find_if_two] at hf
            have hall : rest.findIdx end_of_esc = rest.length := by
              simp only [List.length_cons] at hf
              omega
            rw [List.findIdx_eq_length] at hall
            intro j d hj hd
            obtain ⟨i, rfl⟩ : ∃ i, j = i + 2 := ⟨j - 2, by omega⟩
            simp only [List.getElem?_cons_succ] at hd
            exact hall d (List.getElem?_mem hd)
          · rw [process_csi rest hf] at hres
            exact absurd (congrArg Prod.fst hres) (by simp)
        · cases h2 : end_of_esc c1 with
          | true =>
            rw [process_esc_pair c1 rest h1 h2] at hres
            exact absurd (congrArg Prod.fst hres) (by simp)
          | false =>
            rw [process_unknown c1 rest h1 h2] at hres
            exact absurd (congrArg Prod.fst hres) (by simp)
    · rw [process_plain c0 tail h0] at hres
      exact absurd (congrArg Prod.fst hres) (by simp)

example : sample_decoder.seek 10 = some (Outcome.returned, sample_decoder_sought) := by decide
example : sample_decoder_sought.reads [0, 2] = some sample_decoder_read := by decide
/-! ## Theorems: alsa_player::do_write -/

/-- When `do_write` asks for frames, the count is the `frames_to_write` the code
computes, it is not zero, and unless the read threw the stream afterwards is the
stream after a read of that many frames. -/
theorem do_write_requested (ndebug : Bool) (stream : input_stream) (env : write_env) (n : Nat)
    (h : (alsa_player.do_write ndebug stream env).1.requested_frames = some n) :
    stream.size ≠ stream.position ∧ stream.fmt.frame_size ≠ 0 ∧ n ≠ 0 ∧
    n = alsa_player.frames_to_write stream env ∧
    (env.read_throws = false → (alsa_player.do_write ndebug stream env).2 = stream.read n) := by
  unfold alsa_player.do_write at h ⊢
  by_cases h1 : stream.size = stream.position
  · simp [h1, write_step.requested_frames] at h
  · by_cases h2 : stream.fmt.frame_size = 0
    · simp [h1, h2, write_step.requested_frames] at h
    · by_cases h3 : alsa_player.frames_to_write stream env = 0
      · simp [h1, h2, h3, write_step.requested_frames] at h
      · cases hr : env.read_throws with
        | true =>
          simp only [h1, h2, h3, hr, if_true, if_false, write_step.requested_frames,
            Option.some.injEq] at h
          exact ⟨h1, h2, by omega, h.symm, fun hc => by simp at hc⟩
        | false =>
          cases hw : env.write with
          | none =>
            simp only [h1, h2, h3, hr, hw, if_false, write_step.requested_frames,
              Option.some.injEq, Bool.false_eq_true] at h
            subst h
            refine ⟨h1, h2, h3, rfl, fun _ => ?_⟩
            simp only [h1, h2, h3, if_false, Bool.false_eq_true]
          | some written =>
            by_cases ha : (!ndebug && decide (written ≠ alsa_player.frames_to_write stream env)) = true
            · simp only [h1, h2, h3, hr, hw, ha, if_true, if_false, write_step.requested_frames,
                Option.some.injEq, Bool.false_eq_true] at h
              subst h
              refine ⟨h1, h2, h3, rfl, fun _ => ?_⟩
              simp only [h1, h2, h3, ha, if_true, if_false, Bool.false_eq_true]
            · simp only [h1, h2, h3, hr, hw, ha, if_true, if_false, write_step.requested_frames,
                Option.some.injEq, Bool.false_eq_true] at h
              subst h
              refine ⟨h1, h2, h3, rfl, fun _ => ?_⟩
              simp only [h1, h2, h3, ha, if_true, if_false, Bool.false_eq_true]

theorem generate_length {G : Type} (next : G → Int × G) (k : Nat) (g : G) :
    (generate next k g).1.length = k := by
  induction k generalizing g with
  | zero => rfl
  | succ k ih => simp [generate, ih]

theorem offered_length {G : Type} (next : G → Int × G) (s : pcm_test G) :
    (pcm_test.offered next s).length = max s.buffer.length 1000 := by
  unfold pcm_test.offered fill_buffer
  by_cases h : s.buffer.length ≥ 1000
  · simp only [h, if_true]
    omega
  · simp only [h, if_false, List.length_append, generate_length]
    omega

theorem buffer_starts_offered {G : Type} (next : G → Int × G) (s : pcm_test G) :
    s.buffer <+: pcm_test.offered next s := by
  unfold pcm_test.offered fill_buffer
  by_cases h : s.buffer.length ≥ 1000
  · simp only [h, if_true]
    exact List.prefix_refl _
  · simp only [h, if_false]
    exact List.prefix_append _ _

theorem offered_of_full {G : Type} (next : G → Int × G) (s : pcm_test G)
    (h : 1000 ≤ s.buffer.length) : pcm_test.offered next s = s.buffer := by
  unfold pcm_test.offered fill_buffer
  simp [h]

/-- C6, as stated, fails for `alsa_player::do_write`: when the sink writes 60 of
the 100 frames requested, the step ends in the failed assertion
`written == frames_to_write`; with the assertion compiled out it completes, but
the stream position has advanced by all 100 frames, so the 40 frames not written
are not read again. -/
theorem C6_partial_write_counterexample :
    alsa_player.do_write false { size := 1000, position := 0, fmt := cd_format }
        { get_available := 100, avail_update := 100, read_throws := false, write := some 60 }
      = (write_step.assert_failed 100 60, { size := 1000, position := 100, fmt := cd_format }) ∧
    alsa_player.do_write true { size := 1000, position := 0, fmt := cd_format }
        { get_available := 100, avail_update := 100, read_throws := false, write := some 60 }
      = (write_step.completed 100 60, { size := 1000, position := 100, fmt := cd_format }) := by
  decide

/-- C6, amended: in `pcm_test::do_write`, when `snd_pcm_writei` returns a count
`err >= 0` smaller than the number of samples offered, the step returns normally
without a recovery call, removes exactly the `err` samples written from the front
of the offered samples, and the samples that remain are the first ones offered
by the next `do_write`. In `alsa_player::do_write` a write that returns
`written < n` for a request of `n` frames is not handled as a partial success:
the assertion `written == frames_to_write` fails unless assertions are compiled
out, and either way the stream has advanced by all `n` frames. -/
theorem C6_partial_write_amended {G : Type} (next : G → Int × G) (err : Int) (s : pcm_test G)
    (ndebug : Bool) (stream : input_stream) (env : write_env) (n written : Nat)
    (herr0 : 0 ≤ err) (herr : err.toNat < (pcm_test.offered next s).length)
    (hreq : (alsa_player.do_write ndebug stream env).1.requested_frames = some n)
    (hread : env.read_throws = false) (hwrite : env.write = some written) (hshort : written < n) :
    ((pcm_test.do_write next err s).1 = Outcome.returned ∧
     (pcm_test.do_write next err s).2.prepare_calls = s.prepare_calls ∧
     (pcm_test.do_write next err s).2.buffer = (pcm_test.offered next s).drop err.toNat ∧
     (pcm_test.do_write next err s).2.buffer ≠ [] ∧
     (pcm_test.do_write next err s).2.buffer <+:
       pcm_test.offered next (pcm_test.do_write next err s).2) ∧
    ((alsa_player.do_write ndebug stream env).1 =
       (if ndebug then write_step.completed n written else write_step.assert_failed n written) ∧
     (alsa_player.do_write ndebug stream env).2.position = stream.position + n) := by
  constructor
  · have e1 : err ≠ -EPIPE := by unfold EPIPE; omega
    have e2 : err ≠ -EAGAIN := by unfold EAGAIN; omega
    have e3 : ¬ err < 0 := by omega
    have hb : (pcm_test.do_write next err s).2.buffer = (pcm_test.offered next s).drop err.toNat := by
      simp [pcm_test.do_write, e1, e2, e3, pcm_test.offered]
    refine ⟨by simp [pcm_test.do_write, e1, e2, e3], by simp [pcm_test.do_write, e1, e2, e3], hb,
      ?_, buffer_starts_offered next _⟩
    rw [hb]
    intro hnil
    have := congrArg List.length hnil
    simp only [List.length_drop, List.length_nil] at this
    omega
  · obtain ⟨h1, h2, h3, h4, h5⟩ := do_write_requested ndebug stream env n hreq
    have hpos : (alsa_player.do_write ndebug stream env).2.position = stream.position + n := by
      rw [h5 hread]
      rfl
    refine ⟨?_, hpos⟩
    have hwn : written ≠ n := by omega
    subst h4
    unfold alsa_player.do_write
    cases ndebug with
    | true => simp [h1, h2, h3, hread, hwrite]
    | false => simp [h1, h2, h3, hread, hwrite, hwn]

/-- C6, amended, at an empty `pcm_test` buffer with 400 of the 1000 samples
written, and at an `alsa_player` request of 100 frames of which 60 are written. -/
theorem C6_partial_write_amended_witness :
    (0 : Int) ≤ 400 ∧
    (alsa_player.do_write false { size := 1000, position := 0, fmt := cd_format }
        { get_available := 100, avail_update := 100, read_throws := false, write := some 60 }).1
      = write_step.assert_failed 100 60 ∧
    (pcm_test.do_write counter_gen 400 { buffer := [], wave_gen := 0, prepare_calls := 0 }).1
      = Outcome.returned ∧
    (pcm_test.do_write counter_gen 400 { buffer := [], wave_gen := 0, prepare_calls := 0 }).2.buffer
      ≠ [] :=
  have h := C6_partial_write_amended counter_gen 400
    { buffer := [], wave_gen := 0, prepare_calls := 0 } false
    { size := 1000, position := 0, fmt := cd_format }
    { get_available := 100, avail_update := 100, read_throws := false, write := some 60 } 100 60
    (by decide) (by rw [offered_length]; decide) (by decide) rfl rfl (by decide)
  ⟨by decide, h.2.1, h.1.1, h.1.2.2.2.1⟩

/-- C9: for every state of the pending buffer, when `snd_pcm_writei` reports an
underrun (`-EPIPE`), `pcm_test::do_write` calls `prepare` exactly once and returns
without throwing; no sample is removed or altered: the buffer afterwards is
exactly the samples that were offered to the sink (the samples pending before
the call, topped up by `fill_buffer` to 1000), with the samples pending before
the call still at its front. The next `do_write` finds at least 1000 samples
pending and offers exactly that buffer. -/
theorem C9_underrun_recovery {G : Type} (next : G → Int × G) (s : pcm_test G) :
    (pcm_test.do_write next (-EPIPE) s).1 = Outcome.returned ∧
    (pcm_test.do_write next (-EPIPE) s).2.prepare_calls = s.prepare_calls + 1 ∧
    (pcm_test.do_write next (-EPIPE) s).2.buffer = pcm_test.offered next s ∧
    s.buffer <+: (pcm_test.do_write next (-EPIPE) s).2.buffer ∧
    (pcm_test.do_write next (-EPIPE) s).2.buffer.length = max s.buffer.length 1000 ∧
    pcm_test.offered next (pcm_test.do_write next (-EPIPE) s).2 =
      (pcm_test.do_write next (-EPIPE) s).2.buffer := by
  have hb : (pcm_test.do_write next (-EPIPE) s).2.buffer = pcm_test.offered next s := by
    simp [pcm_test.do_write, pcm_test.offered]
  refine ⟨by simp [pcm_test.do_write], by simp [pcm_test.do_write], hb, ?_, ?_, ?_⟩
  · rw [hb]
    exact buffer_starts_offered next s
  · rw [hb, offered_length]
  · apply offered_of_full
    rw [hb, offered_length]
    omega

/-! ## Theorems: optional_player -/

theorem on_close_idem (s : optional_player) : s.on_close.on_close = s.on_close := by
  unfold optional_player.on_close
  cases h : s.player_ with
  | none => simp [h]
  | some p => simp

/-- C7: what holds of the teardown and where the code departs from it. `on_close`
applied twice is `on_close` applied once; it empties the slot and destroys the
player exactly when there is one, so a termination signal after any teardown
changes nothing. A `q` token, a `do_write` at the end of the stream and a
`do_write` whose read or write throws each call `on_quit`. But the `on_close` of
a `q` token destroys the player, and with it the keyboard handler, while
`process_output_buf` is still running on that handler: the read of the chunk `q`
ends on the destroyed handler, and for the chunk `q` `q` the second token is
still to be delivered there, where it should have been a trigger without
effect. A chunk without `q` returns on the live player. -/
theorem C7_teardown_idempotent (s : optional_player) (ndebug : Bool) (stream : input_stream)
    (env : write_env) (d w sample_rate : Nat) :
    s.on_close.on_close = s.on_close ∧
    s.on_close.player_ = none ∧
    s.on_close.destroyed = s.destroyed + (if s.player_.isSome then 1 else 0) ∧
    s.on_close.on_signal = s.on_close ∧
    on_keyboard w sample_rate [0x71] = [Action.on_quit] ∧
    (stream.size = stream.position →
      (alsa_player.do_write ndebug stream env).1.calls_on_quit = true) ∧
    ((alsa_player.do_write ndebug stream env).1.requested_frames ≠ none →
      (env.read_throws = true ∨ env.write = none) →
      (alsa_player.do_write ndebug stream env).1.calls_on_quit = true) ∧
    alsa_player.keyboard_read w sample_rate { kh_output_buf := [] } d [0x71] =
      callback_end.used_destroyed_handler { player_ := none, destroyed := d + 1 } [] ∧
    alsa_player.keyboard_read w sample_rate { kh_output_buf := [] } d [0x71, 0x71] =
      callback_end.used_destroyed_handler { player_ := none, destroyed := d + 1 }
        [Event.on_key [0x71]] ∧
    alsa_player.keyboard_read w sample_rate { kh_output_buf := [] } d [0x51, 0x1b] =
      callback_end.returned { player_ := some { kh_output_buf := [0x1b] }, destroyed := d } := by
  refine ⟨on_close_idem s, ?_, ?_, on_close_idem s, by simp [on_keyboard], ?_, ?_, ?_, ?_, ?_⟩
  · unfold optional_player.on_close
    cases hp : s.player_ with
    | none => simp [hp]
    | some q => simp
  · unfold optional_player.on_close
    cases hp : s.player_ with
    | none => simp
    | some q => simp
  · intro h
    simp [alsa_player.do_write, h, write_step.calls_on_quit]
  · intro hreq herr
    cases hn : (alsa_player.do_write ndebug stream env).1.requested_frames with
    | none => exact absurd hn hreq
    | some n =>
      obtain ⟨h1, h2, h3, h4, _⟩ := do_write_requested ndebug stream env n hn
      subst h4
      unfold alsa_player.do_write
      cases hr : env.read_throws with
      | true => simp [h1, h2, h3, write_step.calls_on_quit]
      | false =>
        rcases herr with herr | herr
        · rw [hr] at herr
          exact Bool.noConfusion herr
        · simp [h1, h2, h3, herr, write_step.calls_on_quit]
  · have h : handle_read_input [] [0x71] = ([Event.on_key [0x71]], []) := by decide
    unfold alsa_player.keyboard_read
    rw [h]
    simp [deliver_keys, on_keyboard, optional_player.on_close]
  · have h : handle_read_input [] [0x71, 0x71] = ([Event.on_key [0x71], Event.on_key [0x71]], []) := by
      decide
    unfold alsa_player.keyboard_read
    rw [h]
    simp [deliver_keys, on_keyboard, optional_player.on_close]
  · have h : handle_read_input [] [0x51, 0x1b] = ([Event.on_key [0x51]], [0x1b]) := by decide
    unfold alsa_player.keyboard_read
    rw [h]
    simp [deliver_keys, on_keyboard]

/-! ## Theorems: decoder -/

theorem set_last_error_pos (d : decoder) (msg : String) :
    (d.set_last_error msg).current_pos = d.current_pos := by
  unfold decoder.set_last_error
  split <;> rfl

theorem do_write_pos (block : List (Int × Int)) (d : decoder) :
    (d.do_write block).current_pos = d.current_pos := by
  unfold decoder.do_write
  induction block generalizing d with
  | nil => rfl
  | cons x xs ih =>
    rw [List.foldl_cons, ih]
    rfl

theorem callbacks_pos (cs : List Callback) (d : decoder) :
    (d.callbacks cs).current_pos = d.current_pos := by
  unfold decoder.callbacks
  induction cs generalizing d with
  | nil => rfl
  | cons c cs ih =>
    rw [List.foldl_cons, ih]
    cases c with
    | do_write block => exact do_write_pos block d
    | do_metadata b f t => exact set_last_error_pos d _
    | do_error status => exact set_last_error_pos d _

/-- The loop of `read` changes `current_pos` only on the path that returns, and
there by `number_of_frames`. -/
theorem read_loop_pos (nf nb : Nat) (script : List FlacCall) : ∀ (d : decoder) (r : ReadResult)
    (e : decoder), decoder.read_loop nf nb script d = some (r, e) →
    (∀ buf, r = ReadResult.returned buf → e.current_pos = (d.current_pos + nf) % SIZE_T) ∧
    (∀ what, r = ReadResult.threw what → e.current_pos = d.current_pos) := by
  induction script with
  | nil =>
    intro d r e h
    unfold decoder.read_loop at h
    split at h
    · simp only [Option.some.injEq, Prod.mk.injEq] at h
      obtain ⟨h1, h2⟩ := h
      subst h1 h2
      exact ⟨fun _ _ => rfl, fun _ hc => ReadResult.noConfusion hc⟩
    · exact Option.noConfusion h
  | cons call rest ih =>
    intro d r e h
    unfold decoder.read_loop at h
    split at h
    · simp only [Option.some.injEq, Prod.mk.injEq] at h
      obtain ⟨h1, h2⟩ := h
      subst h1 h2
      exact ⟨fun _ _ => rfl, fun _ hc => ReadResult.noConfusion hc⟩
    · simp only at h
      have hp : (if call.res = 0 then
          (({ d with dec := rest } : decoder).callbacks call.callbacks).set_last_error "unknown error"
          else ({ d with dec := rest } : decoder).callbacks call.callbacks).current_pos = d.current_pos := by
        split
        · rw [set_last_error_pos, callbacks_pos]
        · rw [callbacks_pos]
      split at h
      · simp only [Option.some.injEq, Prod.mk.injEq] at h
        obtain ⟨h1, h2⟩ := h
        subst h1 h2
        exact ⟨fun _ hc => ReadResult.noConfusion hc, fun _ _ => hp⟩
      · have := ih _ r e h
        rw [hp] at this
        exact this

theorem read_pos (d : decoder) (n : Nat) (r : ReadResult) (e : decoder)
    (h : d.read n = some (r, e)) :
    (∀ buf, r = ReadResult.returned buf → e.current_pos = (d.current_pos + n) % SIZE_T) ∧
    (∀ what, r = ReadResult.threw what → e.current_pos = d.current_pos) := by
  unfold decoder.read at h
  split at h
  · simp only [Option.some.injEq, Prod.mk.injEq] at h
    obtain ⟨h1, h2⟩ := h
    subst h1 h2
    exact ⟨fun _ hc => ReadResult.noConfusion hc, fun _ _ => rfl⟩
  · exact read_loop_pos _ _ _ d r e h

theorem seek_pos (d e : decoder) (p : Nat) (h : d.seek p = some (Outcome.returned, e)) :
    e.current_pos = p := by
  unfold decoder.seek at h
  split at h
  · simp at h
  · split at h
    · exact Option.noConfusion h
    · simp only at h
      split at h
      · split at h
        · simp at h
        · simp only [Option.some.injEq, Prod.mk.injEq, true_and] at h
          subst h
          rw [set_last_error_pos, callbacks_pos]
      · simp only [Option.some.injEq, Prod.mk.injEq, true_and] at h
        subst h
        rw [callbacks_pos]

theorem reads_pos (ws : List Nat) : ∀ (d e : decoder), d.reads ws = some e →
    d.current_pos + ws.sum < SIZE_T → e.current_pos = d.current_pos + ws.sum := by
  induction ws with
  | nil =>
    intro d e h _
    simp only [decoder.reads, Option.some.injEq] at h
    subst h
    simp
  | cons n ns ih =>
    intro d e h hfit
    simp only [List.sum_cons] at hfit
    unfold decoder.reads at h
    split at h
    · rename_i buf d1 hr
      have h1 := (read_pos d n _ d1 hr).1 buf rfl
      rw [Nat.mod_eq_of_lt (by omega)] at h1
      have h2 := ih d1 e h (by omega)
      rw [h2, h1, List.sum_cons]
      omega
    · exact Option.noConfusion h

/-- A read of 0 frames never calls libFLAC: it throws the pending error or returns
at once, and the position stays where it was. -/
theorem read_zero (d : decoder) (hp : d.current_pos < SIZE_T) :
    ∃ r e, d.read 0 = some (r, e) ∧ e.current_pos = d.current_pos := by
  unfold decoder.read
  split
  · exact ⟨_, _, rfl, rfl⟩
  · rw [Nat.zero_mul, Nat.zero_mod]
    cases d.dec with
    | nil =>
      unfold decoder.read_loop
      rw [if_pos (Nat.zero_le _)]
      exact ⟨_, _, rfl, Nat.mod_eq_of_lt hp⟩
    | cons call rest =>
      unfold decoder.read_loop
      rw [if_pos (Nat.zero_le _)]
      exact ⟨_, _, rfl, Nat.mod_eq_of_lt hp⟩

/-- C8: a `seek(p)` that returns leaves `get_position() == p`; a `read` of `n`
frames that returns has added exactly `n` to the position (in `size_t`
arithmetic), and a `read` that throws leaves the position as it was. Hence after
a `seek(p)` that returns and reads of `w1..wN` frames that all return,
`get_position() == p + w1 + ... + wN` as long as that sum fits `size_t`. A read
of 0 frames after the seek ends without calling libFLAC and leaves
`get_position() == p`. -/
theorem C8_position_bookkeeping (d d1 d2 : decoder) (p : Nat) (ws : List Nat)
    (hseek : d.seek p = some (Outcome.returned, d1))
    (hreads : d1.reads ws = some d2)
    (hfit : p + ws.sum < SIZE_T) :
    d1.get_position = p ∧
    d2.get_position = p + ws.sum ∧
    (∀ (e e' : decoder) (n : Nat) (buf : List Byte),
      e.read n = some (ReadResult.returned buf, e') →
        e'.get_position = (e.get_position + n) % SIZE_T ∧
        (e.get_position + n < SIZE_T → e'.get_position = e.get_position + n)) ∧
    (∀ (e e' : decoder) (n : Nat) (what : String),
      e.read n = some (ReadResult.threw what, e') → e'.get_position = e.get_position) ∧
    (∃ r e, d1.read 0 = some (r, e) ∧ e.get_position = p) := by
  have h1 : d1.current_pos = p := seek_pos d d1 p hseek
  refine ⟨h1, ?_, ?_, ?_, ?_⟩
  · have := reads_pos ws d1 d2 hreads (by rw [h1]; exact hfit)
    rw [h1] at this
    exact this
  · intro e e' n buf h
    have := (read_pos e n _ e' h).1 buf rfl
    refine ⟨this, fun hlt => ?_⟩
    show e'.current_pos = e.current_pos + n
    rw [this]
    exact Nat.mod_eq_of_lt hlt
  · intro e e' n what h
    exact (read_pos e n _ e' h).2 what rfl
  · obtain ⟨r, e, hr, he⟩ := read_zero d1 (by rw [h1]; omega)
    exact ⟨r, e, hr, by rw [← h1]; exact he⟩

/-- C8 at `sample_decoder`: `seek(10)`, then reads of 0 and of 2 frames. -/
theorem C8_position_bookkeeping_witness :
    sample_decoder.seek 10 = some (Outcome.returned, sample_decoder_sought) ∧
    sample_decoder_sought.reads [0, 2] = some sample_decoder_read ∧
    10 + [0, 2].sum < SIZE_T ∧
    sample_decoder_sought.get_position = 10 ∧
    sample_decoder_read.get_position = 10 + [0, 2].sum :=
  have h := C8_position_bookkeeping sample_decoder sample_decoder_sought sample_decoder_read 10 [0, 2]
    (by decide) (by decide) (by decide)
  ⟨by decide, by decide, by decide, h.1, h.2.1⟩

end Asoundpp
